import Mathlib

/-! # Verification of the open-in-explorer path pipeline

Shallow embedding of `src/extension.ts` (sakataka/open-in-explorer):
the path sanitizer, the per-platform path validators, the custom-explorer
command denylist, `executeCommand`, the text/binary classifier, and the
decision logic of `processPath` and the `activate` command callback.

Strings are modelled as Lean `String`/`List Char`; bytes as `Nat`.
JavaScript `Buffer` reads are modelled with `Option`-valued indexing
(`undefined` becomes `none`), and the two floating-point density
comparisons of `isTextFile` are modelled exactly as rational comparisons
by cross-multiplication (for the scan-window sizes the code can produce,
the double-precision comparison agrees with the exact rational one, and
the `0/0` NaN comparisons of an empty window are `false` in both).
-/

namespace OpenInExplorer

/-! ## JavaScript string primitives

`String.prototype.trim` and the regex class `\s` use the same character
set (WhiteSpace ∪ LineTerminator of the ECMAScript standard). -/

/-- The ECMAScript whitespace set used by `trim()` and by `\s` in regexes. -/
def isJsWhitespace (c : Char) : Bool :=
  (9 ≤ c.toNat && c.toNat ≤ 13) || c.toNat == 32 || c.toNat == 0xa0 ||
  c.toNat == 0x1680 || (0x2000 ≤ c.toNat && c.toNat ≤ 0x200a) ||
  c.toNat == 0x2028 || c.toNat == 0x2029 || c.toNat == 0x202f ||
  c.toNat == 0x205f || c.toNat == 0x3000 || c.toNat == 0xfeff

/-- `String.prototype.trim`, on the underlying character list. -/
def jsTrimChars (l : List Char) : List Char :=
  ((l.dropWhile isJsWhitespace).reverse.dropWhile isJsWhitespace).reverse

/-- `String.prototype.trim` on strings. -/
def jsTrimString (s : String) : String :=
  String.mk (jsTrimChars s.data)

/-- The characters removed by `sanitizePath`'s `replace(/["']/g, '')`. -/
def isQuoteChar (c : Char) : Bool :=
  c == '"' || c == '\''

/-- `replace(/["']/g, '')` from `sanitizePath` (src/extension.ts line 406). -/
def removeQuotes (l : List Char) : List Char :=
  l.filter (fun c => !isQuoteChar c)

/-! ## Node `path.posix.normalize`

`sanitizePath` (line 409) calls `normalize` from the `path` module, which
on the POSIX builds (darwin/linux) performs the classic lexical pass:
split on `/`, drop empty and `.` segments, resolve `..` against a stack
(above-root `..` is kept only for relative paths), rejoin, and restore
the leading and trailing separators.  The Windows build differs only in
separator handling; all concrete inputs used below are separator-free or
forward-slash paths on which the two builds agree. -/

/-- Splitting a character list at `/` separators (like `split('/')`).
The result is always nonempty, so prepending to its head is total. -/
def splitSlash : List Char → List (List Char)
  | [] => [[]]
  | c :: rest =>
    let ss := splitSlash rest
    if c = '/' then [] :: ss
    else (c :: ss.headI) :: ss.tail

/-- The segment `..`. -/
def dotdot : List Char := ['.', '.']

/-- Segments kept by the normalizer: neither empty nor `.`. -/
def keepSeg (s : List Char) : Bool :=
  !(s == [] || s == ['.'])

/-- The `..`-resolution stack walk of Node's `normalizeString`.
The accumulator holds the already-resolved segments, most recent first. -/
def resolveSegs (allowAboveRoot : Bool) : List (List Char) → List (List Char) → List (List Char)
  | [], acc => acc.reverse
  | seg :: rest, acc =>
    if seg = dotdot then
      match acc with
      | top :: acc' =>
        if top = dotdot then resolveSegs allowAboveRoot rest (dotdot :: top :: acc')
        else resolveSegs allowAboveRoot rest acc'
      | [] =>
        if allowAboveRoot then resolveSegs allowAboveRoot rest [dotdot]
        else resolveSegs allowAboveRoot rest []
    else resolveSegs allowAboveRoot rest (seg :: acc)

/-- Re-joining resolved segments with `/`. -/
def joinSlash : List (List Char) → List Char
  | [] => []
  | [s] => s
  | s :: ss => s ++ '/' :: joinSlash ss

/-- Whether a character list starts with `/`. -/
def startsWithSlash : List Char → Bool
  | c :: _ => c == '/'
  | [] => false

/-- Whether a character list ends with `/`. -/
def endsWithSlash (l : List Char) : Bool :=
  startsWithSlash l.reverse

/-- Reassembly step of `path.posix.normalize`: restore the leading `/`
of an absolute path and the trailing separator, with the special cases
for an empty resolved core. -/
def assemble (isAbs trailing : Bool) (res : List (List Char)) : List Char :=
  let core := joinSlash res
  if core = [] then
    if isAbs then ['/'] else if trailing then ['.', '/'] else ['.']
  else
    (if isAbs then '/' :: core else core) ++ (if trailing then ['/'] else [])

/-- `path.posix.normalize` on character lists. -/
def posixNormalizeChars (p : List Char) : List Char :=
  if p = [] then ['.']
  else
    assemble (startsWithSlash p) (endsWithSlash p)
      (resolveSegs (!startsWithSlash p) ((splitSlash p).filter keepSeg) [])

/-- `sanitizePath` (src/extension.ts lines 401-412): trim surrounding
whitespace, delete every `"` and `'`, then lexically normalize. -/
def sanitizePath (s : String) : String :=
  String.mk (posixNormalizeChars (removeQuotes (jsTrimChars s.data)))


/-! ## Substring search

JavaScript's unanchored `RegExp.test` with a plain alternation of
literals is substring containment; with the `i` flag, containment after
ASCII lower-casing. -/

/-- `needle` occurs as a contiguous substring of the second list. -/
def isSubOf (needle : List Char) : List Char → Bool
  | [] => needle.isEmpty
  | c :: rest => needle.isPrefixOf (c :: rest) || isSubOf needle rest

/-- Case-insensitive substring test (`/pat/i.test(s)` for a literal). -/
def containsCI (s pat : String) : Bool :=
  isSubOf (pat.data.map Char.toLower) (s.data.map Char.toLower)

/-! ## `validateCustomExplorer` and `executeCommand` -/

/-- The character class `[;&|><$`\\]` of the first dangerous pattern. -/
def isShellMeta (c : Char) : Bool :=
  c == ';' || c == '&' || c == '|' || c == '>' || c == '<' ||
  c == '$' || c == '`' || c == '\\'

/-- Whether a command matches one of the four dangerous patterns of
`validateCustomExplorer` (src/extension.ts lines 188-193). -/
def matchesDangerous (command : String) : Bool :=
  let lcs := command.data.map Char.toLower
  command.data.any isShellMeta ||
  (isSubOf "curl".data lcs || isSubOf "wget".data lcs ||
   isSubOf "nc".data lcs || isSubOf "ncat".data lcs) ||
  (isSubOf "bash".data lcs || isSubOf "sh".data lcs ||
   isSubOf "cmd".data lcs || isSubOf "powershell".data lcs) ||
  (isSubOf "rm".data lcs || isSubOf "rmdir".data lcs ||
   isSubOf "del".data lcs || isSubOf "format".data lcs)

/-- `validateCustomExplorer` (src/extension.ts lines 186-196): `true`
iff no dangerous pattern matches. -/
def validateCustomExplorer (command : String) : Bool :=
  !matchesDangerous command


/-- A message in both languages (`LocalizedMessage`). -/
structure LocalizedMessage where
  ja : String
  en : String
deriving DecidableEq

/-- `getLocalizedMessage` (src/extension.ts lines 160-162). -/
def getLocalizedMessage (message : LocalizedMessage) (language : String) : String :=
  if language = "en" then message.en else message.ja

/-- `MESSAGES.CUSTOM_EXPLORER_INVALID`. -/
def CUSTOM_EXPLORER_INVALID : LocalizedMessage :=
  ⟨"カスタムエクスプローラーコマンドに無効な文字が含まれています。",
   "Custom explorer command contains invalid characters."⟩

/-- The `ExtensionConfig` record produced by `loadConfig`.  Field order:
customExplorerWindows, customExplorerMacOS, customExplorerLinux,
textFileScanBytes, largeFileSizeLimit, confirmLargeFileOpen,
allowRelativePaths, language, followSymlinks. -/
structure ExtensionConfig where
  customExplorerWindows : String
  customExplorerMacOS : String
  customExplorerLinux : String
  textFileScanBytes : Nat
  largeFileSizeLimit : Nat
  confirmLargeFileOpen : Bool
  allowRelativePaths : Bool
  language : String
  followSymlinks : Bool
deriving DecidableEq

/-- Outcome of the underlying `execPromise` call: resolved without
stderr, resolved with stderr text, or rejected with an error message. -/
inductive ExecOutcome where
  | success (stdout : String)
  | successWithStderr (stdout stderr : String)
  | failure (message : String)
deriving DecidableEq

/-- The `{success, output?, error?}` record returned by `executeCommand`. -/
structure CommandResult where
  success : Bool
  output : Option String
  error : Option String
deriving DecidableEq

/-- `executeCommand` (src/extension.ts lines 206-254).  The first
component records whether the external process was launched at all;
`ambientLanguage` is the `loadConfig().language` read at line 218, and
`outcome` the behaviour of the external process when it runs. -/
def executeCommand (commandBase : String) (args : List String)
    (ambientLanguage : String) (outcome : ExecOutcome) : Bool × CommandResult :=
  if commandBase = "explorer.exe" ∨ commandBase = "open" ∨ commandBase = "xdg-open" ∨
      validateCustomExplorer commandBase = true then
    match args, outcome with
    | _, .success out => (true, ⟨true, some out, none⟩)
    | _, .successWithStderr out err => (true, ⟨true, some out, some err⟩)
    | _, .failure msg => (true, ⟨false, none, some msg⟩)
  else
    (false, ⟨false, none, some (getLocalizedMessage CUSTOM_EXPLORER_INVALID ambientLanguage)⟩)

/-- Effects of one `openPath` call: whether a process was launched, the
`executeCommand` result that the handler received back, and the
user-visible messages the handler itself displays. -/
structure OpenPathEffects where
  launchedProcess : Bool
  commandResult : CommandResult
  userMessages : List String
deriving DecidableEq

/-- `WindowsHandler.openPath` (src/extension.ts lines 475-494).  The
body chooses the command and arguments, awaits `executeCommand`, and
returns; the returned result is discarded and no `showErrorMessage`
call appears anywhere in the method, so `userMessages` is `[]` on every
path. -/
def windowsOpenPath (selectedText : String) (isFile : Bool)
    (customExplorer : String) (ambientLanguage : String)
    (outcome : ExecOutcome) : OpenPathEffects :=
  let r :=
    if customExplorer ≠ "" ∧ jsTrimString customExplorer ≠ "" then
      if isFile then executeCommand customExplorer ["/select,", selectedText] ambientLanguage outcome
      else executeCommand customExplorer [selectedText] ambientLanguage outcome
    else
      if isFile then executeCommand "explorer.exe" ["/select,", selectedText] ambientLanguage outcome
      else executeCommand "explorer.exe" [selectedText] ambientLanguage outcome
  ⟨r.1, r.2, []⟩

/-! ## The text/binary classifier `isTextFile` -/

/-- `buffer[i]` on a JavaScript `Buffer`: `none` models `undefined`
for an out-of-range index. -/
def bufAt (buffer : List Nat) (i : Nat) : Option Nat :=
  buffer.get? i

/-- Control bytes counted by the density check: value below 32 other
than tab, LF and CR, or 127. -/
def isControlByte (b : Nat) : Bool :=
  (b < 32 && b ≠ 9 && b ≠ 10 && b ≠ 13) || b == 127

/-- The scan of `isTextFile` (src/extension.ts lines 316-373) over the
allocated buffer and the number of bytes actually read.  BOM sniffing,
then the NUL check, then the control-byte and non-ASCII density checks;
`ratio > 0.2` is `5 * count > bytesRead` and `ratio > 0.9` is
`10 * count > 9 * bytesRead` (both `false` when `bytesRead = 0`, as the
NaN comparisons are in JavaScript). -/
def classifyBuffer (buffer : List Nat) (bytesRead : Nat) : Bool :=
  if 2 ≤ bytesRead then
    if bufAt buffer 0 = some 0xEF ∧ bufAt buffer 1 = some 0xBB ∧ bufAt buffer 2 = some 0xBF then
      true
    else if bufAt buffer 0 = some 0xFE ∧ bufAt buffer 1 = some 0xFF then
      true
    else if bufAt buffer 0 = some 0xFF ∧ bufAt buffer 1 = some 0xFE ∧
        (bufAt buffer 2 ≠ some 0x00 ∨ bufAt buffer 3 ≠ some 0x00) then
      true
    else if bufAt buffer 0 = some 0x00 ∧ bufAt buffer 1 = some 0x00 ∧
        bufAt buffer 2 = some 0xFE ∧ bufAt buffer 3 = some 0xFF then
      true
    else
      let window := buffer.take bytesRead
      if window.contains 0 then false
      else if 5 * (window.filter isControlByte).length > bytesRead then false
      else if 10 * (window.filter (fun b => 127 < b)).length > 9 * bytesRead then false
      else true
  else
    let window := buffer.take bytesRead
    if window.contains 0 then false
    else if 5 * (window.filter isControlByte).length > bytesRead then false
    else if 10 * (window.filter (fun b => 127 < b)).length > 9 * bytesRead then false
    else true

/-- `isTextFile` (src/extension.ts lines 306-378).  It calls
`loadConfig()` itself (line 308) and uses the ambient
`textFileScanBytes` when that is JS-truthy, falling back to the default
parameter 4096; it then reads at most that many bytes of the file into
a zero-filled buffer of exactly that size. -/
def isTextFile (ambient : ExtensionConfig) (fileBytes : List Nat) : Bool :=
  let bytesToRead := if ambient.textFileScanBytes ≠ 0 then ambient.textFileScanBytes else 4096
  let bytesRead := min bytesToRead fileBytes.length
  let buffer := fileBytes.take bytesRead ++ List.replicate (bytesToRead - bytesRead) 0
  classifyBuffer buffer bytesRead


/-- Lower-casing a string character-wise (`toLowerCase` on ASCII data). -/
def toLowerString (s : String) : String :=
  String.mk (s.data.map Char.toLower)

/-- The text-extension allowlist of `determineMimeType`. -/
def textExtensions : List String :=
  [".txt", ".md", ".json", ".js", ".ts", ".html", ".css", ".xml",
   ".csv", ".yml", ".yaml", ".ini", ".conf", ".cfg", ".log",
   ".c", ".cpp", ".h", ".hpp", ".java", ".py", ".rb", ".php",
   ".sh", ".bash", ".ps1", ".bat", ".cmd", ".sql", ".diff"]

/-- The binary-extension denylist of `determineMimeType`. -/
def binaryExtensions : List String :=
  [".pdf", ".doc", ".docx", ".xls", ".xlsx", ".ppt", ".pptx",
   ".zip", ".rar", ".tar", ".gz", ".7z", ".exe", ".dll", ".so",
   ".png", ".jpg", ".jpeg", ".gif", ".bmp", ".tiff", ".webp",
   ".mp3", ".mp4", ".avi", ".mov", ".mkv", ".wav", ".flac",
   ".db", ".sqlite", ".mdb"]

/-- `determineMimeType` (src/extension.ts lines 261-296), parameterized
by the value of `path.extname(filePath)` and the file's bytes; unknown
extensions fall back to the byte scan of `isTextFile`, which reads the
ambient configuration. -/
def determineMimeType (ambient : ExtensionConfig) (extnameResult : String)
    (fileBytes : List Nat) : String :=
  let ext := toLowerString extnameResult
  if textExtensions.contains ext then "text/plain"
  else if binaryExtensions.contains ext then "application/octet-stream"
  else if isTextFile ambient fileBytes then "text/plain"
  else "application/octet-stream"

/-! ## Platform validators -/

/-- ASCII letter, the `[a-zA-Z]` class. -/
def isAsciiLetter (c : Char) : Bool :=
  ('a' ≤ c && c ≤ 'z') || ('A' ≤ c && c ≤ 'Z')

/-- The forbidden class `[<>:"|?*]` of `LOCAL_DRIVE_REGEX`. -/
def isWinForbiddenChar (c : Char) : Bool :=
  c == '<' || c == '>' || c == ':' || c == '"' || c == '|' || c == '?' || c == '*'

/-- `LOCAL_DRIVE_REGEX = /^[a-zA-Z]:\\[^<>:"|?*]+$/` (src/extension.ts
line 449), fully anchored. -/
def isLocalDrivePath (s : String) : Bool :=
  match s.data with
  | c :: ':' :: '\\' :: rest =>
    isAsciiLetter c && !rest.isEmpty && rest.all (fun d => !isWinForbiddenChar d)
  | _ => false

/-- Continuation of the UNC matcher after the middle backslash: the
share name needs one leading non-whitespace non-backslash character. -/
def uncShareStart : List Char → Bool
  | [] => false
  | c :: _ => !isJsWhitespace c && c ≠ '\\'

/-- Continuation of the UNC matcher inside the host name, at least one
character of which has already been consumed. -/
def uncHostRest : List Char → Bool
  | [] => false
  | '\\' :: rest => uncShareStart rest
  | c :: rest => !isJsWhitespace c && uncHostRest rest

/-- `UNC_PATH_REGEX = /^\\\\[^\s\\]+\\[^\s\\]+/` (src/extension.ts
line 447), anchored at the start only. -/
def isUncPath (s : String) : Bool :=
  match s.data with
  | '\\' :: '\\' :: c :: rest =>
    !isJsWhitespace c && c ≠ '\\' && uncHostRest rest
  | _ => false

/-- Line terminators, the characters a JavaScript regex `.` rejects. -/
def isLineTerminator (c : Char) : Bool :=
  c == '\n' || c == '\r' || c.toNat == 0x2028 || c.toNat == 0x2029

/-- `ABSOLUTE_PATH_REGEX = /^\/.+/` of the macOS and Linux handlers
(src/extension.ts lines 502 and 546). -/
def isAbsolutePosix (s : String) : Bool :=
  match s.data with
  | '/' :: c :: _ => !isLineTerminator c
  | _ => false

/-- `selectedText.includes('..')`. -/
def containsDotDot (s : String) : Bool :=
  isSubOf dotdot s.data

/-- The localized rejection messages the three validators can return. -/
inductive ValidationError where
  | windowsPathInvalid
  | macosPathInvalid
  | linuxPathInvalid
deriving DecidableEq

/-- `WindowsHandler.validatePath` (src/extension.ts lines 451-468). -/
def windowsValidatePath (selectedText : String) (allowRelative : Bool) :
    Option ValidationError :=
  if isLocalDrivePath selectedText then none
  else if isUncPath selectedText then none
  else if allowRelative ∧ containsDotDot selectedText = false then none
  else some .windowsPathInvalid

/-- `MacOSHandler.validatePath` (src/extension.ts lines 504-516). -/
def macosValidatePath (selectedText : String) (allowRelative : Bool) :
    Option ValidationError :=
  if isAbsolutePosix selectedText ∧ containsDotDot selectedText = false then none
  else if allowRelative ∧ containsDotDot selectedText = false then none
  else some .macosPathInvalid

/-- `LinuxHandler.validatePath` (src/extension.ts lines 548-560). -/
def linuxValidatePath (selectedText : String) (allowRelative : Bool) :
    Option ValidationError :=
  if isAbsolutePosix selectedText ∧ containsDotDot selectedText = false then none
  else if allowRelative ∧ containsDotDot selectedText = false then none
  else some .linuxPathInvalid


/-! ## The command callback (`activate`, steps 2-4)

The `extension.openInExplorer` callback (src/extension.ts lines 812-851)
trims the raw selection, fails with `NO_VALID_PATH` when the trimmed
text is empty, otherwise sanitizes it and hands the sanitized text to
the platform validator; only when the validator returns `null` does
control continue into `processPath`, whose first actions are the
filesystem probes (`fs.lstat` in `handleSymlink`, then `fs.stat`). -/

/-- How far a run gets before `processPath`: the `NO_VALID_PATH`
failure, a validator rejection, or entry into `processPath` (at which
point filesystem probes begin). -/
inductive RunStage where
  | failedNoValidPath
  | failedValidation (e : ValidationError)
  | proceedsToProcessPath (sanitized : String)
deriving DecidableEq

/-- Steps 2-4 of the command callback, parameterized by the active
platform's validator. -/
def activateRun (raw : String) (allowRelative : Bool)
    (validate : String → Bool → Option ValidationError) : RunStage :=
  let rawSelectedText := jsTrimString raw
  if rawSelectedText = "" then .failedNoValidPath
  else
    let selectedText := sanitizePath rawSelectedText
    match validate selectedText allowRelative with
    | some e => .failedValidation e
    | none => .proceedsToProcessPath selectedText


/-! ## `processPath` -/

/-- The slice of `fs.Stats` that `processPath` consults. -/
structure FileStats where
  isFile : Bool
  size : Nat
deriving DecidableEq

/-- Result of the `fs.stat` probe: success, `ENOENT`, or another error. -/
inductive StatOutcome where
  | ok (stats : FileStats)
  | errENOENT
  | errOther
deriving DecidableEq

/-- The user's answer to the large-file warning dialog; `dismissed`
models closing the dialog, which resolves to `undefined`. -/
inductive UserChoice where
  | openNormal
  | openExplorer
  | cancel
  | dismissed
deriving DecidableEq

/-- Terminal outcome of one `processPath` run. -/
inductive Outcome where
  | failedPathNotExists
  | failedStatError
  | dispatched
  | openedInEditor
  | failedEditorOpen
  | cancelled
deriving DecidableEq

/-- Outcome of a `processPath` run together with whether the large-file
warning dialog was shown. -/
structure ProcessPathResult where
  outcome : Outcome
  largeFilePromptShown : Bool
deriving DecidableEq

/-- Boolean `startsWith` on strings (JavaScript `String.startsWith`). -/
def strStartsWith (s pre : String) : Bool :=
  pre.data.isPrefixOf s.data

/-- The decision logic of `processPath` (src/extension.ts lines
666-762), parameterized by the stat outcome, the value of
`path.extname(normalizedPath)`, the MIME string computed by
`determineMimeType`, the threaded config, the dialog answer and whether
the editor open succeeds.  `largeFilePromptShown` records whether the
`showWarningMessage` suspension at line 724 was reached. -/
def processPath (stat : StatOutcome) (extnameResult : String) (mime : String)
    (config : ExtensionConfig) (choice : UserChoice) (editorOpenOk : Bool) :
    ProcessPathResult :=
  match stat with
  | .errENOENT => ⟨.failedPathNotExists, false⟩
  | .errOther => ⟨.failedStatError, false⟩
  | .ok stats =>
    if stats.isFile then
      if extnameResult = "" then ⟨.dispatched, false⟩
      else if strStartsWith mime "text/" then
        if stats.size > config.largeFileSizeLimit ∧ config.confirmLargeFileOpen then
          match choice with
          | .openExplorer => ⟨.dispatched, true⟩
          | .openNormal =>
            if editorOpenOk then ⟨.openedInEditor, true⟩ else ⟨.failedEditorOpen, true⟩
          | _ => ⟨.cancelled, true⟩
        else
          if editorOpenOk then ⟨.openedInEditor, false⟩ else ⟨.failedEditorOpen, false⟩
      else ⟨.dispatched, false⟩
    else ⟨.dispatched, false⟩

/-- One run's classification-and-dispatch decision as a function of the
snapshot loaded at run start (threaded into `processPath`) and of the
ambient configuration that `isTextFile` re-reads when the byte scan
executes. -/
def runDecision (startConfig ambientAtScan : ExtensionConfig) (stat : StatOutcome)
    (extnameResult : String) (fileBytes : List Nat) (choice : UserChoice)
    (editorOpenOk : Bool) : ProcessPathResult :=
  processPath stat extnameResult (determineMimeType ambientAtScan extnameResult fileBytes)
    startConfig choice editorOpenOk

/-! ## Helper lemmas -/

/-- A command matching the denylist is rejected by `executeCommand`
before any process is launched, with the localized invalid-command
error. -/
theorem execRejectsDangerous (commandBase : String) (args : List String)
    (ambientLanguage : String) (outcome : ExecOutcome)
    (h : matchesDangerous commandBase = true) :
    executeCommand commandBase args ambientLanguage outcome =
      (false, ⟨false, none,
        some (getLocalizedMessage CUSTOM_EXPLORER_INVALID ambientLanguage)⟩) := by
  have h1 : commandBase ≠ "explorer.exe" := by rintro rfl; exact absurd h (by decide)
  have h2 : commandBase ≠ "open" := by rintro rfl; exact absurd h (by decide)
  have h3 : commandBase ≠ "xdg-open" := by rintro rfl; exact absurd h (by decide)
  have h4 : validateCustomExplorer commandBase = false := by
    simp [validateCustomExplorer, h]
  simp [executeCommand, h1, h2, h3, h4]

/-! ## Claim theorems -/

/-- Claim C1, counterexample: `C:\a\..\b` contains a `..` segment, yet
the Windows validator accepts it (returns `null`) for both values of
`allowRelativePaths`, because `LOCAL_DRIVE_REGEX` does not exclude
dots. -/
theorem C1_counterexample :
    containsDotDot "C:\\a\\..\\b" = true ∧
    windowsValidatePath "C:\\a\\..\\b" false = none ∧
    windowsValidatePath "C:\\a\\..\\b" true = none := by decide

/-- Claim C1 as amended: a string containing `..` is rejected by the
macOS and Linux validators for both values of `allowRelativePaths`, and
by the Windows validator whenever it matches neither the local-drive
nor the UNC absolute-path grammar (in particular the relative-path
branch never accepts `..`). -/
theorem C1_amended (s : String) (allowRelative : Bool)
    (h : containsDotDot s = true) :
    macosValidatePath s allowRelative = some .macosPathInvalid ∧
    linuxValidatePath s allowRelative = some .linuxPathInvalid ∧
    (isLocalDrivePath s = false → isUncPath s = false →
      windowsValidatePath s allowRelative = some .windowsPathInvalid) := by
  refine ⟨?_, ?_, fun h1 h2 => ?_⟩
  · simp [macosValidatePath, h]
  · simp [linuxValidatePath, h]
  · simp [windowsValidatePath, h, h1, h2]

/-- Claim C1 amended, witness at `/tmp/../etc`. -/
theorem C1_witness :
    containsDotDot "/tmp/../etc" = true ∧
    macosValidatePath "/tmp/../etc" false = some .macosPathInvalid ∧
    linuxValidatePath "/tmp/../etc" false = some .linuxPathInvalid ∧
    windowsValidatePath "/tmp/../etc" false = some .windowsPathInvalid := by
  have h := C1_amended "/tmp/../etc" false (by decide)
  exact ⟨by decide, h.1, h.2.1, h.2.2 (by decide) (by decide)⟩

/-- Claim C2, counterexample: the raw selection `"` (one double-quote
character) is not empty after trimming, so it passes the emptiness
check; it sanitizes to `.`, and the Linux validator is invoked on it —
with `allowRelativePaths = true` it is even accepted, so the run enters
`processPath` and the filesystem probes, and with `false` the run fails
with the platform grammar message, not the no-valid-path message. -/
theorem C2_counterexample :
    activateRun "\"" true linuxValidatePath = .proceedsToProcessPath "." ∧
    activateRun "\"" false linuxValidatePath =
      .failedValidation .linuxPathInvalid := by decide

/-- Claim C2 as amended: only a raw selection that is empty after
whitespace trimming terminates with the no-valid-path failure before
any validator is invoked (the result does not depend on the validator)
and before any filesystem probe; a selection containing quote
characters survives the emptiness check and reaches the validator. -/
theorem C2_amended (raw : String) (allowRelative : Bool)
    (validate : String → Bool → Option ValidationError)
    (h : jsTrimString raw = "") :
    activateRun raw allowRelative validate = .failedNoValidPath := by
  simp [activateRun, h]

/-- Claim C2 amended, witness at a whitespace-only selection. -/
theorem C2_witness :
    jsTrimString " \t " = "" ∧
    activateRun " \t " false linuxValidatePath = .failedNoValidPath :=
  ⟨by decide, C2_amended " \t " false linuxValidatePath (by decide)⟩

/-- Claim C3, code evaluation at the failing input: when the external
reveal command fails (rejected promise) or produces stderr,
`WindowsHandler.openPath` receives the error in the `executeCommand`
result but discards it; its effect trace contains no user-visible
message on any path. -/
theorem C3_code_evaluation :
    (windowsOpenPath "C:\\data\\report.txt" true "" "ja"
        (.failure "Access is denied")).commandResult =
      ⟨false, none, some "Access is denied"⟩ ∧
    (windowsOpenPath "C:\\data\\report.txt" true "" "ja"
        (.failure "Access is denied")).userMessages = [] ∧
    (windowsOpenPath "C:\\data\\report.txt" true "" "ja"
        (.successWithStderr "" "explorer error")).commandResult.error =
      some "explorer error" ∧
    (∀ (sel customExplorer lang : String) (isFile : Bool) (outcome : ExecOutcome),
      (windowsOpenPath sel isFile customExplorer lang outcome).userMessages = []) := by
  refine ⟨by decide, by decide, by decide, fun sel ce lang isFile outcome => rfl⟩

/-- Claim C4, counterexample: two runs with the same at-start snapshot
(scan bytes 512) but different ambient configurations when `isTextFile`
executes (scan bytes 2 vs 1) classify the same file bytes `41 00`
differently and end in different outcomes, because `isTextFile` re-reads
`loadConfig()` instead of using the threaded snapshot. -/
theorem C4_counterexample :
    runDecision ⟨"", "", "", 512, 5242880, true, false, "ja", true⟩
        ⟨"", "", "", 2, 5242880, true, false, "ja", true⟩
        (.ok ⟨true, 10⟩) ".xyz" [0x41, 0x00] .openNormal true ≠
      runDecision ⟨"", "", "", 512, 5242880, true, false, "ja", true⟩
        ⟨"", "", "", 1, 5242880, true, false, "ja", true⟩
        (.ok ⟨true, 10⟩) ".xyz" [0x41, 0x00] .openNormal true := by decide

/-- Claim C4 as amended: the at-start snapshot governs the large-file
threshold, the confirmation flag and the dialog routing, and the
ambient configuration influences the run's outcome only through the
content classification (`determineMimeType`/`isTextFile`): two runs
with equal at-start snapshots whose ambient configurations yield the
same MIME decision behave identically. -/
theorem C4_amended (startConfig a1 a2 : ExtensionConfig) (stat : StatOutcome)
    (extnameResult : String) (fileBytes : List Nat) (choice : UserChoice)
    (editorOpenOk : Bool)
    (h : determineMimeType a1 extnameResult fileBytes =
      determineMimeType a2 extnameResult fileBytes) :
    runDecision startConfig a1 stat extnameResult fileBytes choice editorOpenOk =
      runDecision startConfig a2 stat extnameResult fileBytes choice editorOpenOk := by
  unfold runDecision
  rw [h]

/-- Claim C4 amended, witness at an unchanged ambient configuration. -/
theorem C4_witness :
    determineMimeType ⟨"", "", "", 512, 5242880, true, false, "ja", true⟩ ".txt" [] =
      determineMimeType ⟨"", "", "", 512, 5242880, true, false, "ja", true⟩ ".txt" [] ∧
    runDecision ⟨"", "", "", 4096, 5242880, true, false, "ja", true⟩
        ⟨"", "", "", 512, 5242880, true, false, "ja", true⟩
        (.ok ⟨true, 10⟩) ".txt" [] .openNormal true =
      runDecision ⟨"", "", "", 4096, 5242880, true, false, "ja", true⟩
        ⟨"", "", "", 512, 5242880, true, false, "ja", true⟩
        (.ok ⟨true, 10⟩) ".txt" [] .openNormal true :=
  ⟨rfl,
   C4_amended ⟨"", "", "", 4096, 5242880, true, false, "ja", true⟩
     ⟨"", "", "", 512, 5242880, true, false, "ja", true⟩
     ⟨"", "", "", 512, 5242880, true, false, "ja", true⟩
     (.ok ⟨true, 10⟩) ".txt" [] .openNormal true rfl⟩

/-- Claim C5: a custom explorer command matching the denylist of
dangerous substrings makes `executeCommand` return the
invalid-custom-command error without ever launching the external
process, whatever the arguments, ambient language and hypothetical
process behaviour. -/
theorem C5_theorem (commandBase : String) (args : List String)
    (ambientLanguage : String) (outcome : ExecOutcome)
    (h : matchesDangerous commandBase = true) :
    executeCommand commandBase args ambientLanguage outcome =
      (false, ⟨false, none,
        some (getLocalizedMessage CUSTOM_EXPLORER_INVALID ambientLanguage)⟩) :=
  execRejectsDangerous commandBase args ambientLanguage outcome h

/-- Claim C5, witness at the command `;rm -rf /`. -/
theorem C5_witness :
    matchesDangerous ";rm -rf /" = true ∧
    executeCommand ";rm -rf /" ["/home/user/file.txt"] "en" (.success "") =
      (false, ⟨false, none, some (getLocalizedMessage CUSTOM_EXPLORER_INVALID "en")⟩) :=
  ⟨by decide, C5_theorem ";rm -rf /" ["/home/user/file.txt"] "en" (.success "") (by decide)⟩

/-- Claim C6, counterexample: a text file whose size equals
`largeFileSizeLimit` exactly (the claim's "at or above" includes this)
does not suspend — the code tests `fileSize > limit` strictly — and with
the choice `cancel` the run still opens the editor instead of ending in
`Cancelled`. -/
theorem C6_counterexample :
    processPath (.ok ⟨true, 5242880⟩) ".txt" "text/plain"
        ⟨"", "", "", 512, 5242880, true, false, "ja", true⟩ .cancel true =
      ⟨.openedInEditor, false⟩ := by decide

/-- Claim C6 as amended: for a regular file with a non-empty extension
and a `text/` MIME decision whose size is strictly above
`largeFileSizeLimit`, with `confirmLargeFileOpen` enabled, the run
shows the three-way warning dialog whatever the eventual choice, and
choosing cancel or dismissing the dialog ends the run in `Cancelled`
with neither the editor open nor the file-manager dispatch invoked. -/
theorem C6_amended (stats : FileStats) (config : ExtensionConfig)
    (extnameResult mime : String) (editorOpenOk : Bool)
    (hFile : stats.isFile = true) (hExt : extnameResult ≠ "")
    (hMime : strStartsWith mime "text/" = true)
    (hLarge : stats.size > config.largeFileSizeLimit)
    (hConfirm : config.confirmLargeFileOpen = true) :
    (∀ choice : UserChoice,
      (processPath (.ok stats) extnameResult mime config choice
        editorOpenOk).largeFilePromptShown = true) ∧
    (∀ choice : UserChoice, choice = .cancel ∨ choice = .dismissed →
      processPath (.ok stats) extnameResult mime config choice editorOpenOk =
        ⟨.cancelled, true⟩) := by
  constructor
  · intro choice
    cases editorOpenOk <;> cases choice <;>
      simp [processPath, hFile, hExt, hMime, hLarge, hConfirm]
  · rintro choice (rfl | rfl) <;>
      simp [processPath, hFile, hExt, hMime, hLarge, hConfirm]

/-- Claim C6 amended, witness: a 6 MB text file above the default 5 MB
limit prompts, and cancel ends in `Cancelled`. -/
theorem C6_witness :
    (processPath (.ok ⟨true, 6291456⟩) ".log" "text/plain"
        ⟨"", "", "", 512, 5242880, true, false, "ja", true⟩ .openNormal
        true).largeFilePromptShown = true ∧
    processPath (.ok ⟨true, 6291456⟩) ".log" "text/plain"
        ⟨"", "", "", 512, 5242880, true, false, "ja", true⟩ .cancel true =
      ⟨.cancelled, true⟩ := by
  have h := C6_amended ⟨true, 6291456⟩
    ⟨"", "", "", 512, 5242880, true, false, "ja", true⟩ ".log" "text/plain" true
    rfl (by decide) (by decide) (by decide) rfl
  exact ⟨h.1 .openNormal, h.2 .cancel (Or.inl rfl)⟩

/-- Claim C7: a scanned buffer whose first three bytes are `EF BB BF`
is classified Text whatever the remaining bytes, because the UTF-8 BOM
check precedes the NUL-byte check. -/
theorem C7_theorem (rest : List Nat) (bytesRead : Nat) (h : 3 ≤ bytesRead) :
    classifyBuffer (0xEF :: 0xBB :: 0xBF :: rest) bytesRead = true := by
  have h2 : 2 ≤ bytesRead := le_trans (by norm_num) h
  simp [classifyBuffer, h2, bufAt]

/-- Claim C7, witness: the BOM followed by only NUL bytes is Text. -/
theorem C7_witness :
    3 ≤ 6 ∧ classifyBuffer [0xEF, 0xBB, 0xBF, 0, 0, 0] 6 = true :=
  ⟨by decide, C7_theorem [0, 0, 0] 6 (by decide)⟩

/-- Claim C9: the denylist matches raw substrings anywhere, so any
string containing a backslash, or containing `sh`, `rm`, `nc`, `del`,
`cmd` or `format` case-insensitively, fails `validateCustomExplorer`
and is never launched by `executeCommand`. -/
theorem C9_theorem (s : String)
    (h : '\\' ∈ s.data ∨
      containsCI s "sh" = true ∨ containsCI s "rm" = true ∨
      containsCI s "nc" = true ∨ containsCI s "del" = true ∨
      containsCI s "cmd" = true ∨ containsCI s "format" = true) :
    validateCustomExplorer s = false ∧
    ∀ (args : List String) (lang : String) (outcome : ExecOutcome),
      (executeCommand s args lang outcome).1 = false := by
  have hd : matchesDangerous s = true := by
    rcases h with hm | h' | h' | h' | h' | h' | h'
    · have hb : s.data.any isShellMeta = true :=
        List.any_eq_true.mpr ⟨'\\', hm, by decide⟩
      simp [matchesDangerous, hb]
    · have e : ("sh".data.map Char.toLower) = "sh".data := by decide
      unfold containsCI at h'; rw [e] at h'
      simp [matchesDangerous, h']
    · have e : ("rm".data.map Char.toLower) = "rm".data := by decide
      unfold containsCI at h'; rw [e] at h'
      simp [matchesDangerous, h']
    · have e : ("nc".data.map Char.toLower) = "nc".data := by decide
      unfold containsCI at h'; rw [e] at h'
      simp [matchesDangerous, h']
    · have e : ("del".data.map Char.toLower) = "del".data := by decide
      unfold containsCI at h'; rw [e] at h'
      simp [matchesDangerous, h']
    · have e : ("cmd".data.map Char.toLower) = "cmd".data := by decide
      unfold containsCI at h'; rw [e] at h'
      simp [matchesDangerous, h']
    · have e : ("format".data.map Char.toLower) = "format".data := by decide
      unfold containsCI at h'; rw [e] at h'
      simp [matchesDangerous, h']
  refine ⟨by simp [validateCustomExplorer, hd], fun args lang outcome => ?_⟩
  rw [execRejectsDangerous s args lang outcome hd]

/-- Claim C9, witness: a Windows-style absolute custom explorer path is
rejected and never launched. -/
theorem C9_witness :
    '\\' ∈ ("C:\\Tools\\explorerpp.exe" : String).data ∧
    validateCustomExplorer "C:\\Tools\\explorerpp.exe" = false ∧
    (executeCommand "C:\\Tools\\explorerpp.exe" ["C:\\data"] "ja"
      (.success "")).1 = false := by
  have h := C9_theorem "C:\\Tools\\explorerpp.exe" (Or.inl (by decide))
  exact ⟨by decide, h.1, h.2 ["C:\\data"] "ja" (.success "")⟩

/-- Claim C10: the classifier is total (its shallow embedding is a
total function, so every scan yields Text or Binary), and an empty
regular file — zero bytes read — is classified Text: the BOM checks are
skipped, the empty window holds no NUL byte, and both density
comparisons are `false` at `bytesRead = 0` exactly as the JavaScript
NaN comparisons are. -/
theorem C10_theorem (buffer : List Nat) (bytesRead : Nat) (config : ExtensionConfig) :
    (classifyBuffer buffer bytesRead = true ∨ classifyBuffer buffer bytesRead = false) ∧
    classifyBuffer buffer 0 = true ∧
    isTextFile config [] = true := by
  refine ⟨?_, ?_, ?_⟩
  · cases h : classifyBuffer buffer bytesRead
    · exact Or.inr rfl
    · exact Or.inl rfl
  · simp [classifyBuffer]
  · simp [isTextFile, classifyBuffer]

/-! ## Lemmas on the sanitizer, towards claim C8 -/

/-- `dropWhile` is the identity when no element satisfies the predicate. -/
theorem dropWhile_eq_self_of_none {α : Type} {p : α → Bool} {l : List α}
    (h : ∀ c ∈ l, p c = false) : l.dropWhile p = l := by
  cases l with
  | nil => rfl
  | cons a t =>
    rw [List.dropWhile_cons, h a (List.mem_cons_self a t)]
    simp

/-- Trimming a string with no whitespace anywhere is the identity. -/
theorem jsTrimChars_eq_self {l : List Char}
    (h : ∀ c ∈ l, isJsWhitespace c = false) : jsTrimChars l = l := by
  unfold jsTrimChars
  rw [dropWhile_eq_self_of_none h,
    dropWhile_eq_self_of_none (fun c hc => h c (List.mem_reverse.mp hc)),
    List.reverse_reverse]

/-- Quote removal on a quote-free string is the identity. -/
theorem removeQuotes_eq_self {l : List Char}
    (h : ∀ c ∈ l, isQuoteChar c = false) : removeQuotes l = l :=
  List.filter_eq_self.mpr (fun c hc => by rw [h c hc]; rfl)

/-- `splitSlash` never returns the empty list. -/
theorem splitSlash_ne_nil (l : List Char) : splitSlash l ≠ [] := by
  cases l with
  | nil => simp [splitSlash]
  | cons c rest =>
    by_cases h : c = '/' <;> simp [splitSlash, h]

/-- The head of a nonempty list is a member. -/
theorem headI_mem {l : List (List Char)} (h : l ≠ []) : l.headI ∈ l := by
  cases l with
  | nil => exact absurd rfl h
  | cons x xs => simp [List.headI]

/-- Every character of every `splitSlash` segment is a non-separator
character of the input. -/
theorem splitSlash_sound (l : List Char) :
    ∀ s ∈ splitSlash l, ∀ c ∈ s, c ∈ l ∧ c ≠ '/' := by
  induction l with
  | nil =>
    intro s hs c hc
    simp [splitSlash] at hs
    simp [hs] at hc
  | cons a t ih =>
    intro s hs c hc
    by_cases ha : a = '/'
    · rw [show splitSlash (a :: t) = [] :: splitSlash t by simp [splitSlash, ha]] at hs
      rcases List.mem_cons.mp hs with rfl | hs'
      · cases hc
      · obtain ⟨h1, h2⟩ := ih s hs' c hc
        exact ⟨List.mem_cons_of_mem _ h1, h2⟩
    · rw [show splitSlash (a :: t) =
          (a :: (splitSlash t).headI) :: (splitSlash t).tail by
            simp [splitSlash, ha]] at hs
      rcases List.mem_cons.mp hs with rfl | hs'
      · rcases List.mem_cons.mp hc with rfl | hc'
        · exact ⟨List.mem_cons_self _ _, ha⟩
        · obtain ⟨h1, h2⟩ := ih _ (headI_mem (splitSlash_ne_nil t)) c hc'
          exact ⟨List.mem_cons_of_mem _ h1, h2⟩
      · obtain ⟨h1, h2⟩ := ih s (List.mem_of_mem_tail hs') c hc
        exact ⟨List.mem_cons_of_mem _ h1, h2⟩

/-- A separator-free character list splits into a single segment. -/
theorem splitSlash_no_slash {s : List Char} (h : ∀ c ∈ s, c ≠ '/') :
    splitSlash s = [s] := by
  induction s with
  | nil => rfl
  | cons c t ih =>
    have hc : c ≠ '/' := h c (List.mem_cons_self c t)
    have ht : splitSlash t = [t] := ih (fun d hd => h d (List.mem_cons_of_mem c hd))
    simp [splitSlash, hc, ht]

/-- Splitting a separator-free segment glued with `/` onto a remainder
peels off exactly that segment. -/
theorem splitSlash_append {s : List Char} (h : ∀ c ∈ s, c ≠ '/')
    (m : List Char) : splitSlash (s ++ '/' :: m) = s :: splitSlash m := by
  induction s with
  | nil => simp [splitSlash]
  | cons c t ih =>
    have hc : c ≠ '/' := h c (List.mem_cons_self c t)
    have ht := ih (fun d hd => h d (List.mem_cons_of_mem c hd))
    simp [splitSlash, hc, ht]

/-- The two-or-more-segments equation of `joinSlash`. -/
theorem joinSlash_cons_cons (s s2 : List Char) (r2 : List (List Char)) :
    joinSlash (s :: s2 :: r2) = s ++ '/' :: joinSlash (s2 :: r2) := rfl

/-- Every character of a joined segment list is a segment character or
the separator. -/
theorem joinSlash_sound (res : List (List Char)) :
    ∀ c ∈ joinSlash res, (∃ s ∈ res, c ∈ s) ∨ c = '/' := by
  induction res with
  | nil => intro c hc; cases hc
  | cons s rest ih =>
    intro c hc
    cases rest with
    | nil => exact Or.inl ⟨s, List.mem_cons_self _ _, hc⟩
    | cons s2 r2 =>
      rw [joinSlash_cons_cons] at hc
      rcases List.mem_append.mp hc with h1 | h2
      · exact Or.inl ⟨s, List.mem_cons_self _ _, h1⟩
      · rcases List.mem_cons.mp h2 with rfl | h3
        · exact Or.inr rfl
        · rcases ih c h3 with ⟨s', hs', hc'⟩ | h
          · exact Or.inl ⟨s', List.mem_cons_of_mem _ hs', hc'⟩
          · exact Or.inr h

/-- Joining a nonempty list of nonempty segments is nonempty. -/
theorem joinSlash_ne_nil {res : List (List Char)} (hne : res ≠ [])
    (h : ∀ s ∈ res, s ≠ []) : joinSlash res ≠ [] := by
  cases res with
  | nil => exact absurd rfl hne
  | cons s rest =>
    cases rest with
    | nil => exact h s (List.mem_cons_self _ _)
    | cons s2 r2 =>
      rw [joinSlash_cons_cons]
      simp

/-- Prepending to the left operand of an append fixes the head. -/
theorem startsWithSlash_append {l m : List Char} (h : l ≠ []) :
    startsWithSlash (l ++ m) = startsWithSlash l := by
  cases l with
  | nil => exact absurd rfl h
  | cons c t => rfl

/-- A list of non-separator characters does not start with `/`. -/
theorem startsWithSlash_eq_false {l : List Char} (h : ∀ c ∈ l, c ≠ '/') :
    startsWithSlash l = false := by
  cases l with
  | nil => rfl
  | cons c t =>
    have := h c (List.mem_cons_self _ _)
    simp [startsWithSlash, this]

/-- A join of well-formed segments does not start with `/`. -/
theorem startsWithSlash_joinSlash {res : List (List Char)} (hne : res ≠ [])
    (hgood : ∀ s ∈ res, s ≠ [] ∧ ∀ c ∈ s, c ≠ '/') :
    startsWithSlash (joinSlash res) = false := by
  cases res with
  | nil => exact absurd rfl hne
  | cons s rest =>
    obtain ⟨hs, hcs⟩ := hgood s (List.mem_cons_self _ _)
    cases rest with
    | nil => exact startsWithSlash_eq_false hcs
    | cons s2 r2 =>
      rw [joinSlash_cons_cons, startsWithSlash_append hs]
      exact startsWithSlash_eq_false hcs

/-- A join of well-formed segments does not end with `/` (stated on the
reversal). -/
theorem startsWithSlash_joinSlash_reverse {res : List (List Char)} (hne : res ≠ [])
    (hgood : ∀ s ∈ res, s ≠ [] ∧ ∀ c ∈ s, c ≠ '/') :
    startsWithSlash (joinSlash res).reverse = false := by
  induction res with
  | nil => exact absurd rfl hne
  | cons s rest ih =>
    cases rest with
    | nil =>
      apply startsWithSlash_eq_false
      intro c hc
      exact (hgood s (List.mem_cons_self _ _)).2 c (List.mem_reverse.mp hc)
    | cons s2 r2 =>
      rw [joinSlash_cons_cons, List.reverse_append, List.reverse_cons,
        List.append_assoc]
      have hJ : joinSlash (s2 :: r2) ≠ [] :=
        joinSlash_ne_nil (by simp)
          (fun t ht => (hgood t (List.mem_cons_of_mem _ ht)).1)
      have hJr : (joinSlash (s2 :: r2)).reverse ≠ [] := by simpa using hJ
      rw [startsWithSlash_append hJr]
      exact ih (by simp) (fun t ht => hgood t (List.mem_cons_of_mem _ ht))

/-- The head of a join of well-formed segments is the head of its first
segment; splitting undoes joining. -/
theorem splitSlash_joinSlash {res : List (List Char)} (hne : res ≠ [])
    (hgood : ∀ s ∈ res, ∀ c ∈ s, c ≠ '/') :
    splitSlash (joinSlash res) = res := by
  induction res with
  | nil => exact absurd rfl hne
  | cons s rest ih =>
    cases rest with
    | nil => exact splitSlash_no_slash (hgood s (List.mem_cons_self _ _))
    | cons s2 r2 =>
      rw [joinSlash_cons_cons, splitSlash_append (hgood s (List.mem_cons_self _ _)),
        ih (by simp) (fun t ht => hgood t (List.mem_cons_of_mem _ ht))]

/-- Splitting a join glued with `/` onto a remainder peels off all the
joined segments. -/
theorem splitSlash_joinSlash_append {res : List (List Char)} (hne : res ≠ [])
    (hgood : ∀ s ∈ res, ∀ c ∈ s, c ≠ '/') (m : List Char) :
    splitSlash (joinSlash res ++ '/' :: m) = res ++ splitSlash m := by
  induction res with
  | nil => exact absurd rfl hne
  | cons s rest ih =>
    cases rest with
    | nil =>
      show splitSlash (s ++ '/' :: m) = [s] ++ splitSlash m
      rw [splitSlash_append (hgood s (List.mem_cons_self _ _))]
      rfl
    | cons s2 r2 =>
      rw [joinSlash_cons_cons, List.cons_append, List.append_assoc]
      rw [show ('/' :: joinSlash (s2 :: r2)) ++ '/' :: m =
        '/' :: (joinSlash (s2 :: r2) ++ '/' :: m) from rfl]
      rw [splitSlash_append (hgood s (List.mem_cons_self _ _)),
        ih (by simp) (fun t ht => hgood t (List.mem_cons_of_mem _ ht))]

/-- Equation: an exhausted segment list returns the reversed stack. -/
theorem resolveSegs_nil (a : Bool) (acc : List (List Char)) :
    resolveSegs a [] acc = acc.reverse := rfl

/-- Equation: an ordinary segment is pushed. -/
theorem resolveSegs_cons_other (a : Bool) (seg : List Char)
    (rest acc : List (List Char)) (h : seg ≠ dotdot) :
    resolveSegs a (seg :: rest) acc = resolveSegs a rest (seg :: acc) := by
  simp only [resolveSegs]
  rw [if_neg h]

/-- Equation: `..` on an empty stack is kept only above root. -/
theorem resolveSegs_cons_dotdot_nil_true (rest : List (List Char)) :
    resolveSegs true (dotdot :: rest) [] = resolveSegs true rest [dotdot] := by
  simp only [resolveSegs]
  simp

/-- Equation: `..` on an empty stack is dropped in absolute mode. -/
theorem resolveSegs_cons_dotdot_nil_false (rest : List (List Char)) :
    resolveSegs false (dotdot :: rest) [] = resolveSegs false rest [] := by
  simp only [resolveSegs]
  simp

/-- Equation: `..` on top of a kept `..` is pushed. -/
theorem resolveSegs_cons_dotdot_top_dotdot (a : Bool)
    (rest acc' : List (List Char)) :
    resolveSegs a (dotdot :: rest) (dotdot :: acc') =
      resolveSegs a rest (dotdot :: dotdot :: acc') := by
  simp only [resolveSegs]
  simp

/-- Equation: `..` pops an ordinary segment. -/
theorem resolveSegs_cons_dotdot_top_other (a : Bool) (top : List Char)
    (rest acc' : List (List Char)) (h : top ≠ dotdot) :
    resolveSegs a (dotdot :: rest) (top :: acc') = resolveSegs a rest acc' := by
  simp only [resolveSegs]
  simp [h]

/-- Every output segment of the `..`-resolution comes from the input,
the stack, or is `..` itself. -/
theorem resolveSegs_mem (a : Bool) (segs : List (List Char)) :
    ∀ (acc : List (List Char)) (x : List Char),
      x ∈ resolveSegs a segs acc → x ∈ segs ∨ x ∈ acc ∨ x = dotdot := by
  induction segs with
  | nil =>
    intro acc x hx
    rw [resolveSegs_nil] at hx
    exact Or.inr (Or.inl (List.mem_reverse.mp hx))
  | cons seg rest ih =>
    intro acc x hx
    by_cases hseg : seg = dotdot
    · subst hseg
      cases acc with
      | nil =>
        cases a with
        | true =>
          rw [resolveSegs_cons_dotdot_nil_true] at hx
          rcases ih _ x hx with h | h | h
          · exact Or.inl (List.mem_cons_of_mem _ h)
          · simp at h
            exact Or.inr (Or.inr h)
          · exact Or.inr (Or.inr h)
        | false =>
          rw [resolveSegs_cons_dotdot_nil_false] at hx
          rcases ih _ x hx with h | h | h
          · exact Or.inl (List.mem_cons_of_mem _ h)
          · cases h
          · exact Or.inr (Or.inr h)
      | cons top acc' =>
        by_cases htop : top = dotdot
        · subst htop
          rw [resolveSegs_cons_dotdot_top_dotdot] at hx
          rcases ih _ x hx with h | h | h
          · exact Or.inl (List.mem_cons_of_mem _ h)
          · rcases List.mem_cons.mp h with rfl | h2
            · exact Or.inr (Or.inr rfl)
            · exact Or.inr (Or.inl h2)
          · exact Or.inr (Or.inr h)
        · rw [resolveSegs_cons_dotdot_top_other _ _ _ _ htop] at hx
          rcases ih _ x hx with h | h | h
          · exact Or.inl (List.mem_cons_of_mem _ h)
          · exact Or.inr (Or.inl (List.mem_cons_of_mem _ h))
          · exact Or.inr (Or.inr h)
    · rw [resolveSegs_cons_other _ _ _ _ hseg] at hx
      rcases ih _ x hx with h | h | h
      · exact Or.inl (List.mem_cons_of_mem _ h)
      · rcases List.mem_cons.mp h with rfl | h2
        · exact Or.inl (List.mem_cons_self _ _)
        · exact Or.inr (Or.inl h2)
      · exact Or.inr (Or.inr h)

/-- Output shape of the `..`-resolution: all kept `..` segments sit at
the front, and only in relative (`allowAboveRoot`) mode. -/
theorem resolveSegs_shape (a : Bool) (segs : List (List Char)) :
    ∀ (front : List (List Char)) (k : Nat), dotdot ∉ front → (a = false → k = 0) →
      ∃ k' rest', resolveSegs a segs (front ++ List.replicate k dotdot) =
        List.replicate k' dotdot ++ rest' ∧ dotdot ∉ rest' ∧ (a = false → k' = 0) := by
  induction segs with
  | nil =>
    intro front k hf hk
    refine ⟨k, front.reverse, ?_, by simpa using hf, hk⟩
    rw [resolveSegs_nil, List.reverse_append, List.reverse_replicate]
  | cons seg rest ih =>
    intro front k hf hk
    by_cases hseg : seg = dotdot
    · subst hseg
      cases front with
      | nil =>
        cases k with
        | zero =>
          cases a with
          | true =>
            rw [show ([] : List (List Char)) ++ List.replicate 0 dotdot = [] by simp,
              resolveSegs_cons_dotdot_nil_true]
            have := ih [] 1 (by simp) (by simp)
            simpa using this
          | false =>
            rw [show ([] : List (List Char)) ++ List.replicate 0 dotdot = [] by simp,
              resolveSegs_cons_dotdot_nil_false]
            have := ih [] 0 (by simp) (by simp)
            simpa using this
        | succ k2 =>
          have ha : a = true := by
            cases a with
            | true => rfl
            | false => exact absurd (hk rfl) (Nat.succ_ne_zero k2)
          subst ha
          rw [show ([] : List (List Char)) ++ List.replicate (k2 + 1) dotdot =
            dotdot :: List.replicate k2 dotdot by simp [List.replicate_succ],
            resolveSegs_cons_dotdot_top_dotdot]
          have := ih [] (k2 + 2) (by simp) (by simp)
          rw [show ([] : List (List Char)) ++ List.replicate (k2 + 2) dotdot =
            dotdot :: dotdot :: List.replicate k2 dotdot by
              simp [List.replicate_succ]] at this
          exact this
      | cons f fs =>
        have hfne : f ≠ dotdot := fun e => hf (e ▸ List.mem_cons_self _ _)
        rw [List.cons_append, resolveSegs_cons_dotdot_top_other _ _ _ _ hfne]
        exact ih fs k (fun hm => hf (List.mem_cons_of_mem _ hm)) hk
    · rw [show (front ++ List.replicate k dotdot) =
        (front ++ List.replicate k dotdot) from rfl,
        resolveSegs_cons_other _ _ _ _ hseg,
        show seg :: (front ++ List.replicate k dotdot) =
          (seg :: front) ++ List.replicate k dotdot from rfl]
      refine ih (seg :: front) k ?_ hk
      intro hm
      rcases List.mem_cons.mp hm with h | h
      · exact hseg h.symm
      · exact hf h

/-- Resolution of a `..`-free segment list just appends it to the
reversed stack. -/
theorem resolveSegs_no_dotdot (a : Bool) (m : List (List Char)) :
    ∀ acc, dotdot ∉ m → resolveSegs a m acc = acc.reverse ++ m := by
  induction m with
  | nil =>
    intro acc _
    rw [resolveSegs_nil, List.append_nil]
  | cons seg rest ih =>
    intro acc h
    have hseg : seg ≠ dotdot := fun e => h (e ▸ List.mem_cons_self _ _)
    rw [resolveSegs_cons_other _ _ _ _ hseg,
      ih _ (fun hm => h (List.mem_cons_of_mem _ hm)), List.reverse_cons,
      List.append_assoc]
    rfl

/-- In relative mode, resolving an already-resolved list with a stack of
kept `..` segments returns everything unchanged. -/
theorem resolveSegs_resolved_true (rest : List (List Char))
    (hrest : dotdot ∉ rest) :
    ∀ (k j : Nat),
      resolveSegs true (List.replicate k dotdot ++ rest) (List.replicate j dotdot) =
        List.replicate (j + k) dotdot ++ rest := by
  intro k
  induction k with
  | zero =>
    intro j
    rw [show List.replicate 0 dotdot ++ rest = rest by simp,
      resolveSegs_no_dotdot true rest _ hrest, List.reverse_replicate]
    simp
  | succ k2 ihk =>
    intro j
    rw [show List.replicate (k2 + 1) dotdot ++ rest =
      dotdot :: (List.replicate k2 dotdot ++ rest) by simp [List.replicate_succ]]
    cases j with
    | zero =>
      rw [show List.replicate 0 dotdot = ([] : List (List Char)) by simp,
        resolveSegs_cons_dotdot_nil_true,
        show [dotdot] = List.replicate 1 dotdot by simp, ihk 1]
      have harith : 1 + k2 = 0 + (k2 + 1) := by omega
      rw [harith]
    | succ j2 =>
      rw [show List.replicate (j2 + 1) dotdot =
        dotdot :: List.replicate j2 dotdot by simp [List.replicate_succ],
        resolveSegs_cons_dotdot_top_dotdot,
        show dotdot :: dotdot :: List.replicate j2 dotdot =
          List.replicate (j2 + 2) dotdot by simp [List.replicate_succ],
        ihk (j2 + 2)]
      have harith : j2 + 2 + k2 = j2 + 1 + (k2 + 1) := by omega
      rw [harith]

/-- Resolving an already-resolved list is the identity. -/
theorem resolveSegs_idem (a : Bool) (k : Nat) (rest : List (List Char))
    (hrest : dotdot ∉ rest) (hk : a = false → k = 0) :
    resolveSegs a (List.replicate k dotdot ++ rest) [] =
      List.replicate k dotdot ++ rest := by
  cases a with
  | true =>
    have := resolveSegs_resolved_true rest hrest k 0
    simpa using this
  | false =>
    rw [hk rfl]
    simpa using resolveSegs_no_dotdot false rest [] hrest

/-- Kept segments are nonempty and differ from `.`. -/
theorem keepSeg_spec {s : List Char} (h : keepSeg s = true) :
    s ≠ [] ∧ s ≠ ['.'] := by
  unfold keepSeg at h
  simp at h
  exact h

/-- Nonempty segments other than `.` are kept. -/
theorem keepSeg_of_good {s : List Char} (h1 : s ≠ []) (h2 : s ≠ ['.']) :
    keepSeg s = true := by
  simp [keepSeg, h1, h2]

/-- Filtering an already-well-formed segment list keeps everything. -/
theorem filter_keepSeg_self {res : List (List Char)}
    (h : ∀ s ∈ res, s ≠ [] ∧ s ≠ ['.']) : res.filter keepSeg = res :=
  List.filter_eq_self.mpr (fun s hs => keepSeg_of_good (h s hs).1 (h s hs).2)

/-- Splitting after a leading separator yields a leading empty segment. -/
theorem splitSlash_cons_slash (x : List Char) :
    splitSlash ('/' :: x) = [] :: splitSlash x := by
  simp [splitSlash]

/-- Normalizing an assembled normal form returns it unchanged. -/
theorem normalize_assemble (isAbs trailing : Bool) (res : List (List Char))
    (hgood : ∀ s ∈ res, (s ≠ [] ∧ s ≠ ['.']) ∧ ∀ c ∈ s, c ≠ '/')
    (k : Nat) (rest : List (List Char))
    (hres : res = List.replicate k dotdot ++ rest) (hrest : dotdot ∉ rest)
    (hk : isAbs = true → k = 0) :
    posixNormalizeChars (assemble isAbs trailing res) =
      assemble isAbs trailing res := by
  by_cases hcore : joinSlash res = []
  · have hresnil : res = [] := by
      by_contra hne
      exact joinSlash_ne_nil hne (fun s hs => (hgood s hs).1.1) hcore
    subst hresnil
    cases isAbs <;> cases trailing <;> decide
  · have hne : res ≠ [] := by rintro rfl; exact hcore rfl
    have hgood2 : ∀ s ∈ res, ∀ c ∈ s, c ≠ '/' := fun s hs => (hgood s hs).2
    have hgoodA : ∀ s ∈ res, s ≠ [] ∧ ∀ c ∈ s, c ≠ '/' :=
      fun s hs => ⟨(hgood s hs).1.1, (hgood s hs).2⟩
    have hkk : (!isAbs) = false → k = 0 := by
      cases isAbs with
      | true => intro _; exact hk rfl
      | false => intro h; simp at h
    have hrev_ne : (joinSlash res).reverse ≠ [] := by simpa using hcore
    have hresolve : resolveSegs (!isAbs) res [] = res := by
      rw [hres]
      exact resolveSegs_idem _ k rest hrest hkk
    have hstart0 : startsWithSlash (joinSlash res) = false :=
      startsWithSlash_joinSlash hne hgoodA
    have hend0 : startsWithSlash (joinSlash res).reverse = false :=
      startsWithSlash_joinSlash_reverse hne hgoodA
    have hsplitCore : splitSlash (joinSlash res) = res :=
      splitSlash_joinSlash hne hgood2
    have hfilter : res.filter keepSeg = res :=
      filter_keepSeg_self (fun s hs => (hgood s hs).1)
    have hsplitTrail : (splitSlash (joinSlash res ++ ['/'])).filter keepSeg = res := by
      rw [splitSlash_joinSlash_append hne hgood2,
        show splitSlash ([] : List Char) = [[]] from rfl,
        List.filter_append, hfilter]
      simp [keepSeg]
    cases isAbs with
    | true =>
      cases trailing with
      | true =>
        have hasm : assemble true true res = '/' :: (joinSlash res ++ ['/']) := by
          simp [assemble, hcore]
        have hy_ne : assemble true true res ≠ [] := by rw [hasm]; simp
        have hstart : startsWithSlash (assemble true true res) = true := by
          rw [hasm]; simp [startsWithSlash]
        have hend : endsWithSlash (assemble true true res) = true := by
          rw [hasm]
          unfold endsWithSlash
          simp [startsWithSlash]
        have hsplit : (splitSlash (assemble true true res)).filter keepSeg = res := by
          rw [hasm, splitSlash_cons_slash, List.filter_cons]
          simpa [keepSeg] using hsplitTrail
        unfold posixNormalizeChars
        rw [if_neg hy_ne, hstart, hend, hsplit, hresolve]
      | false =>
        have hasm : assemble true false res = '/' :: joinSlash res := by
          simp [assemble, hcore]
        have hy_ne : assemble true false res ≠ [] := by rw [hasm]; simp
        have hstart : startsWithSlash (assemble true false res) = true := by
          rw [hasm]; simp [startsWithSlash]
        have hend : endsWithSlash (assemble true false res) = false := by
          rw [hasm]
          unfold endsWithSlash
          rw [List.reverse_cons, startsWithSlash_append hrev_ne]
          exact hend0
        have hsplit : (splitSlash (assemble true false res)).filter keepSeg = res := by
          rw [hasm, splitSlash_cons_slash, hsplitCore, List.filter_cons]
          simpa [keepSeg] using hfilter
        unfold posixNormalizeChars
        rw [if_neg hy_ne, hstart, hend, hsplit, hresolve]
    | false =>
      cases trailing with
      | true =>
        have hasm : assemble false true res = joinSlash res ++ ['/'] := by
          simp [assemble, hcore]
        have hy_ne : assemble false true res ≠ [] := by rw [hasm]; simp
        have hstart : startsWithSlash (assemble false true res) = false := by
          rw [hasm, startsWithSlash_append hcore]
          exact hstart0
        have hend : endsWithSlash (assemble false true res) = true := by
          rw [hasm]
          unfold endsWithSlash
          simp [startsWithSlash]
        have hsplit : (splitSlash (assemble false true res)).filter keepSeg = res := by
          rw [hasm]
          exact hsplitTrail
        unfold posixNormalizeChars
        rw [if_neg hy_ne, hstart, hend, hsplit, hresolve]
      | false =>
        have hasm : assemble false false res = joinSlash res := by
          simp [assemble, hcore]
        have hy_ne : assemble false false res ≠ [] := by rw [hasm]; exact hcore
        have hstart : startsWithSlash (assemble false false res) = false := by
          rw [hasm]; exact hstart0
        have hend : endsWithSlash (assemble false false res) = false := by
          rw [hasm]
          unfold endsWithSlash
          exact hend0
        have hsplit : (splitSlash (assemble false false res)).filter keepSeg = res := by
          rw [hasm, hsplitCore]
          exact hfilter
        unfold posixNormalizeChars
        rw [if_neg hy_ne, hstart, hend, hsplit, hresolve]

/-- `path.posix.normalize` is idempotent. -/
theorem posixNormalizeChars_idem (p : List Char) :
    posixNormalizeChars (posixNormalizeChars p) = posixNormalizeChars p := by
  by_cases hp : p = []
  · subst hp; decide
  · have h1 : posixNormalizeChars p =
        assemble (startsWithSlash p) (endsWithSlash p)
          (resolveSegs (!startsWithSlash p) ((splitSlash p).filter keepSeg) []) := by
      unfold posixNormalizeChars
      rw [if_neg hp]
    have hgood : ∀ s ∈ resolveSegs (!startsWithSlash p)
        ((splitSlash p).filter keepSeg) [],
        (s ≠ [] ∧ s ≠ ['.']) ∧ ∀ c ∈ s, c ≠ '/' := by
      intro s hs
      rcases resolveSegs_mem _ _ _ s hs with h | h | rfl
      · exact ⟨keepSeg_spec (List.of_mem_filter h),
          fun c hc => (splitSlash_sound p s (List.mem_of_mem_filter h) c hc).2⟩
      · cases h
      · exact ⟨⟨by decide, by decide⟩, by decide⟩
    have hshape := resolveSegs_shape (!startsWithSlash p)
      ((splitSlash p).filter keepSeg) [] 0 (by simp) (fun _ => rfl)
    rw [show ([] : List (List Char)) ++ List.replicate 0 dotdot = [] by simp]
      at hshape
    obtain ⟨k, rest, hres, hrest, hk⟩ := hshape
    rw [h1]
    exact normalize_assemble (startsWithSlash p) (endsWithSlash p) _ hgood k rest
      hres hrest (fun hA => hk (by rw [hA]; rfl))

/-- Every character of a normalized path is a character of the input,
a dot, or a separator. -/
theorem posixNormalizeChars_chars (p : List Char) :
    ∀ c ∈ posixNormalizeChars p, c ∈ p ∨ c = '.' ∨ c = '/' := by
  intro c hc
  by_cases hp : p = []
  · subst hp
    simp [posixNormalizeChars] at hc
    exact Or.inr (Or.inl hc)
  · have hcore_chars : ∀ d ∈ joinSlash (resolveSegs (!startsWithSlash p)
        ((splitSlash p).filter keepSeg) []), d ∈ p ∨ d = '.' ∨ d = '/' := by
      intro d hd
      rcases joinSlash_sound _ d hd with ⟨s, hs, hds⟩ | h
      · rcases resolveSegs_mem _ _ _ s hs with h1 | h1 | rfl
        · exact Or.inl (splitSlash_sound p s (List.mem_of_mem_filter h1) d hds).1
        · cases h1
        · rcases List.mem_cons.mp hds with rfl | hd2
          · exact Or.inr (Or.inl rfl)
          · rcases List.mem_cons.mp hd2 with rfl | hd3
            · exact Or.inr (Or.inl rfl)
            · cases hd3
      · exact Or.inr (Or.inr h)
    unfold posixNormalizeChars at hc
    rw [if_neg hp] at hc
    simp only [assemble] at hc
    set L := joinSlash (resolveSegs (!startsWithSlash p)
      (List.filter keepSeg (splitSlash p)) []) with hL
    by_cases hcore : L = []
    · rw [if_pos hcore] at hc
      rcases hA : startsWithSlash p with _ | _ <;> rw [hA] at hc
      · simp only [if_neg Bool.false_ne_true] at hc
        rcases hT : endsWithSlash p with _ | _ <;> rw [hT] at hc
        · simp only [if_neg Bool.false_ne_true] at hc
          simp at hc
          exact Or.inr (Or.inl hc)
        · simp only [if_pos rfl] at hc
          simp at hc
          rcases hc with rfl | rfl
          · exact Or.inr (Or.inl rfl)
          · exact Or.inr (Or.inr rfl)
      · simp only [if_pos rfl] at hc
        simp at hc
        exact Or.inr (Or.inr hc)
    · rw [if_neg hcore] at hc
      rcases List.mem_append.mp hc with h1 | h2
      · rcases hA : startsWithSlash p with _ | _ <;> rw [hA] at h1
        · simp only [if_neg Bool.false_ne_true] at h1
          exact hcore_chars c h1
        · simp only [if_pos rfl] at h1
          rcases List.mem_cons.mp h1 with rfl | h3
          · exact Or.inr (Or.inr rfl)
          · exact hcore_chars c h3
      · rcases hT : endsWithSlash p with _ | _ <;> rw [hT] at h2
        · simp at h2
        · simp at h2
          exact Or.inr (Or.inr h2)

/-- Claim C8, counterexample: `sanitizePath` is not idempotent.  The
input `" a"` (with a leading double-quote) trims to itself, loses its
quote leaving a leading space, and normalizes to ` a`; sanitizing that
again trims the space away, giving `a`. -/
theorem C8_counterexample :
    sanitizePath (sanitizePath "\" a\"") ≠ sanitizePath "\" a\"" := by decide

/-- Claim C8 as amended: `sanitizePath` is idempotent on every input
containing no whitespace and no quote characters (on general inputs
quote removal can expose whitespace, and normalization can expose a
whitespace-only segment, that a second trim then removes). -/
theorem C8_amended (s : String)
    (h : ∀ c ∈ s.data, isJsWhitespace c = false ∧ isQuoteChar c = false) :
    sanitizePath (sanitizePath s) = sanitizePath s := by
  have htrim : jsTrimChars s.data = s.data :=
    jsTrimChars_eq_self (fun c hc => (h c hc).1)
  have hquote : removeQuotes s.data = s.data :=
    removeQuotes_eq_self (fun c hc => (h c hc).2)
  have h1 : sanitizePath s = String.mk (posixNormalizeChars s.data) := by
    rw [sanitizePath, htrim, hquote]
  have hclean : ∀ c ∈ posixNormalizeChars s.data,
      isJsWhitespace c = false ∧ isQuoteChar c = false := by
    intro c hc
    rcases posixNormalizeChars_chars s.data c hc with hmem | rfl | rfl
    · exact h c hmem
    · exact ⟨by decide, by decide⟩
    · exact ⟨by decide, by decide⟩
  rw [h1, sanitizePath,
    show (String.mk (posixNormalizeChars s.data)).data =
      posixNormalizeChars s.data from rfl,
    jsTrimChars_eq_self (fun c hc => (hclean c hc).1),
    removeQuotes_eq_self (fun c hc => (hclean c hc).2),
    posixNormalizeChars_idem]

/-- Claim C8 amended, witness at a quote-free whitespace-free path that
still exercises `..` resolution. -/
theorem C8_witness :
    (∀ c ∈ ("/usr/local/../share" : String).data,
      isJsWhitespace c = false ∧ isQuoteChar c = false) ∧
    sanitizePath (sanitizePath "/usr/local/../share") =
      sanitizePath "/usr/local/../share" :=
  ⟨by decide, C8_amended "/usr/local/../share" (by decide)⟩

end OpenInExplorer
